import Mathlib

/-!
Verification of the HP-model genetic-algorithm core (Conformation.py,
Population.py): a shallow embedding of the conformation representation
(direction encoding, lattice walk, self-avoidance validity, contact-energy
fitness) and of the population-level loop (initialization, tournament
selection, crossover, mutation-driven elitist replacement, fittest
tracking), together with proofs of the specified properties.

Randomness in the source (Python `random`) is modelled by explicit
oracle parameters: tournament samples, skip decisions, crossover
breakpoints and per-locus mutation outcomes are inputs, and theorems
quantify over them (restricted to the support the source draws from).
Python object references into the population are modelled as indices:
replacement in the source is an in-place `__dict__.update`, which
preserves object identity, so a reference to a member is exactly a slot
index.  The shared `setOfPoints` side channel and the static
`energyEvalSteps` counter are elided: no verified property reads them.
-/

namespace HPGA

/-- Direction constants from Conformation.py: `FORWARD = 0`. -/
def FORWARD : Int := 0

/-- Direction constant `LEFT = -1`. -/
def LEFT : Int := -1

/-- Direction constant `RIGHT = 1`. -/
def RIGHT : Int := 1

/-- The fields of a `Conformation` object (Conformation.py).  The
`protein` is kept outside (in `PopState`), since every conformation of a
run shares one protein. -/
structure Conf where
  length : Nat
  encoding : List Int
  absPositions : List (Int × Int)
  fitness : Int
  generation : Nat
  validState : Bool
deriving DecidableEq

/-- The default `Conformation()` constructor: no protein, everything
zero/empty/false. -/
def emptyConf : Conf :=
  { length := 0, encoding := [], absPositions := [], fitness := 0,
    generation := 0, validState := false }

/-- One iteration of the loop body of `calcAbsolutePositions`
(Conformation.py lines 172-210): given the current coordinates, the
current `lastDirection` (0 = up, 1 = down, 2 = right, 3 = left) and the
direction symbol `d`, produce the next coordinates and heading.  The
`elif` chains of the source are mirrored exactly, including the
fall-through (no move) on an unmatched symbol. -/
def stepPos (x y : Int) (lastDirection : Nat) (d : Int) : Int × Int × Nat :=
  if lastDirection = 0 then
    if d = FORWARD then (x, y + 1, 0)
    else if d = RIGHT then (x + 1, y, 2)
    else if d = LEFT then (x - 1, y, 3)
    else (x, y, 0)
  else if lastDirection = 1 then
    if d = FORWARD then (x, y - 1, 1)
    else if d = RIGHT then (x - 1, y, 3)
    else if d = LEFT then (x + 1, y, 2)
    else (x, y, 1)
  else if lastDirection = 2 then
    if d = FORWARD then (x + 1, y, 2)
    else if d = RIGHT then (x, y - 1, 1)
    else if d = LEFT then (x, y + 1, 0)
    else (x, y, 2)
  else if lastDirection = 3 then
    if d = FORWARD then (x - 1, y, 3)
    else if d = RIGHT then (x, y + 1, 0)
    else if d = LEFT then (x, y - 1, 1)
    else (x, y, 3)
  else (x, y, lastDirection)

/-- The loop of `calcAbsolutePositions`: positions 2, 3, ... computed
from the encoding symbols, threading coordinates and heading. -/
def walkAux : Int → Int → Nat → List Int → List (Int × Int)
  | _, _, _, [] => []
  | x, y, ld, d :: rest =>
    let r := stepPos x y ld d
    (r.1, r.2.1) :: walkAux r.1 r.2.1 r.2.2 rest

/-- `calcAbsolutePositions` (Conformation.py lines 160-210): residue 0
at (0,0), residue 1 at (0,1), initial heading up (code 0), then one
step per encoding symbol. -/
def calcAbsolutePositions (enc : List Int) : List (Int × Int) :=
  (0, 0) :: (0, 1) :: walkAux 0 1 0 enc

/-- Inner-loop body of `calcFitness` (Conformation.py lines 103-109):
for a fixed hydrophobic residue at `ori`, decrement the accumulator if
residue `j` is hydrophobic and axis-aligned at unit distance. -/
def contactStep (protein : List Char) (pos : List (Int × Int))
    (ori : Int × Int) (fit2 : Int) (j : Nat) : Int :=
  if protein.getD j '?' = 'B' then
    let dest := pos.getD j ((0 : Int), (0 : Int))
    let distX := (ori.1 - dest.1).natAbs
    let distY := (ori.2 - dest.2).natAbs
    if (distX = 1 ∧ distY = 0) ∨ (distX = 0 ∧ distY = 1) then fit2 - 1
    else fit2
  else fit2

/-- `calcFitness` (Conformation.py lines 94-110): for every residue `i`
tagged 'B' and every `j` in `range(i+2, n)` tagged 'B' at unit
axis-aligned distance, decrement the fitness; the result is stored in
the `fitness` field by the caller. -/
def calcFitness (n : Nat) (protein : List Char) (pos : List (Int × Int)) : Int :=
  (List.range n).foldl
    (fun fit i =>
      if protein.getD i '?' = 'B' then
        (List.range' (i + 2) (n - (i + 2))).foldl
          (contactStep protein pos (pos.getD i ((0 : Int), (0 : Int)))) fit
      else fit)
    0

/-- The duplicate scan of `calcValidity` (Conformation.py lines
142-148): walk the position list with a `seen` accumulator, answering
false at the first repeated position. -/
def noDupAux (seen : List (Int × Int)) : List (Int × Int) → Bool
  | [] => true
  | p :: rest => if p ∈ seen then false else noDupAux (p :: seen) rest

/-- `calcValidity` restricted to its result: recompute the positions
from the encoding and test them for pairwise distinctness.  (The update
of the external `setOfPoints` is a side channel no property reads.) -/
def calcValidity (enc : List Int) : Bool :=
  noDupAux [] (calcAbsolutePositions enc)

/-- `calcValidity` as a method: recompute `absPositions` from the
encoding, then recompute `validState` (Conformation.py lines 139-148). -/
def revalidate (c : Conf) : Conf :=
  { c with absPositions := calcAbsolutePositions c.encoding,
           validState := noDupAux [] (calcAbsolutePositions c.encoding) }

/-- Character for one encoding symbol in `getConformationString`
(Conformation.py lines 115-126), testing F, then L, then R, else '?'. -/
def dirChar (d : Int) : Char :=
  if d = FORWARD then 'F' else if d = LEFT then 'L'
  else if d = RIGHT then 'R' else '?'

/-- `getConformationString`: the encoding rendered over {F, L, R}. -/
def getConformationString (c : Conf) : String :=
  String.mk (c.encoding.map dirChar)

/-- A random-seeded population member as built in `Population.__init__`
(Population.py lines 28-29): a conformation over encoding `enc` with
positions, validity and fitness computed (`generateRandomConformation`
followed by `calcFitness`); generation 0. -/
def mkConf (protein : List Char) (enc : List Int) : Conf :=
  let pos := calcAbsolutePositions enc
  { length := protein.length, encoding := enc, absPositions := pos,
    fitness := calcFitness protein.length protein pos,
    generation := 0, validState := noDupAux [] pos }

/-- First copy loop of `Conformation.crossover` (lines 60-61) followed
by the second (lines 62-63): write `e1` below index `k` and `e2` from
`k` on into a zero-initialized list of length `len`. -/
def crossEncoding (len k : Nat) (e1 e2 : List Int) : List Int :=
  let base := List.replicate len (0 : Int)
  let withP1 := (List.range' 0 k).foldl (fun acc i => acc.set i (e1.getD i 0)) base
  (List.range' k (len - k)).foldl (fun acc i => acc.set i (e2.getD i 0)) withP1

/-- `Conformation.crossover(p1, p2)` (lines 41-67) at breakpoint `k`
(the source draws `k` by `random.randint(0, length - 3)`, or 0 when
`length - 2 <= 0`): child with `p1`'s protein and length, averaged
generation plus one, spliced encoding, and validity computed by the
constructor's `calcValidity` call. -/
def crossoverConf (p1 p2 : Conf) (k : Nat) : Conf :=
  let enc := crossEncoding (p1.length - 2) k p1.encoding p2.encoding
  { length := p1.length, encoding := enc,
    absPositions := calcAbsolutePositions enc,
    fitness := 0,
    generation := (p1.generation + p2.generation) / 2 + 1,
    validState := noDupAux [] (calcAbsolutePositions enc) }

/-- `mutate(p)` (Conformation.py lines 154-158) with its per-locus coin
flips and resampled values supplied by the oracle `r`: locus `i` is
rewritten to `v` when `r i = some v`, kept otherwise. -/
def mutateEnc (enc : List Int) (r : Nat → Option Int) : List Int :=
  enc.mapIdx (fun i v => (r i).getD v)

/-- `mutate` as a method: only the encoding changes (validity and
fitness are stale until the caller recomputes them). -/
def mutateConf (c : Conf) (r : Nat → Option Int) : Conf :=
  { c with encoding := mutateEnc c.encoding r }

/-- The fields of a `Population` object (Population.py).  `individuals`
is the member list; `setOfConformations` is the uniqueness index of
encoding strings; `fIdx`, `p1Idx`, `p2Idx` are the slot indices the
`theFittest`, `parent1`, `parent2` object references point at. -/
structure PopState where
  protein : List Char
  individuals : List Conf
  setOfConformations : List String
  fIdx : Nat
  p1Idx : Nat
  p2Idx : Nat
deriving DecidableEq

/-- `getFittest` (Population.py lines 55-56): the member the
`theFittest` reference designates. -/
def getFittest (st : PopState) : Conf :=
  st.individuals.getD st.fIdx emptyConf

/-- First-minimum scan shared by `min(..., key=fitness)` in
`tournamentSelect` and by the `setFittest` loop: fold over candidate
indices, moving to `j` only on a strict fitness improvement (so ties
keep the earlier candidate, as Python's `min` and the source's `<` both
do). -/
def bestIdx (inds : List Conf) (start : Nat) (l : List Nat) : Nat :=
  l.foldl
    (fun best j =>
      if (inds.getD j emptyConf).fitness < (inds.getD best emptyConf).fitness
      then j else best)
    start

/-- `tournamentSelect` (Population.py lines 63-68) with the sampled
member indices supplied by the oracle: return the index of the sampled
member with minimal fitness (first one on ties). -/
def tournamentSelectIdx (inds : List Conf) (sample : List Nat) : Nat :=
  match sample with
  | [] => 0
  | s :: rest => bestIdx inds s rest

/-- `setFittest` (Population.py lines 50-53) as run by `__init__` after
`theFittest = individuals[0]`: scan all members, keeping the first
strict improvement. -/
def setFittestIdx (inds : List Conf) : Nat :=
  bestIdx inds 0 (List.range inds.length)

/-- Per-child replacement block of `Population.crossover` (lines 88-95
for child1 with `ownI, otherI = parent1, parent2`; lines 100-106 for
child2 with the parents swapped): if the child is valid, recompute its
fitness, and if its string is absent from the uniqueness index,
register it (`isInsertable`, lines 42-48) and replace the first of
own-parent / other-parent whose fitness is strictly worse. -/
def attemptReplace (protein : List Char) (st : PopState) (child : Conf)
    (ownI otherI : Nat) : PopState :=
  if child.validState then
    let c := { child with
               fitness := calcFitness child.length protein child.absPositions }
    if getConformationString c ∈ st.setOfConformations then st
    else
      let st1 := { st with
                   setOfConformations := getConformationString c :: st.setOfConformations }
      if c.fitness < (st1.individuals.getD ownI emptyConf).fitness then
        { st1 with individuals := st1.individuals.set ownI c }
      else if c.fitness < (st1.individuals.getD otherI emptyConf).fitness then
        { st1 with individuals := st1.individuals.set otherI c }
      else st1
  else st

/-- The random draws consumed by one call of `Population.crossover`:
the two tournament samples, the two early-exit coin flips
(`crossProb < random.random()`), the two crossover breakpoints, and the
two mutation outcomes. -/
structure Oracle where
  sample1 : List Nat
  skip1 : Bool
  sample2 : List Nat
  skip2 : Bool
  k1 : Nat
  k2 : Nat
  m1 : Nat → Option Int
  m2 : Nat → Option Int

/-- One generation step, `Population.crossover` (Population.py lines
71-112): select parent1 (early return on skip), select parent2 (early
return on skip), build both children from the parent snapshots, run the
mutation / validity / replacement block for child1 then child2, then
refresh the fittest reference against the two parent slots. -/
def popStep (st : PopState) (o : Oracle) : PopState :=
  let i1 := tournamentSelectIdx st.individuals o.sample1
  let st1 := { st with p1Idx := i1 }
  if o.skip1 then st1
  else
    let i2 := tournamentSelectIdx st1.individuals o.sample2
    let st2 := { st1 with p2Idx := i2 }
    if o.skip2 then st2
    else
      let p1 := st2.individuals.getD i1 emptyConf
      let p2 := st2.individuals.getD i2 emptyConf
      let child1 := revalidate (mutateConf (crossoverConf p1 p2 o.k1) o.m1)
      let child2 := revalidate (mutateConf (crossoverConf p2 p1 o.k2) o.m2)
      let st3 := attemptReplace st2.protein st2 child1 i1 i2
      let st4 := attemptReplace st3.protein st3 child2 i2 i1
      let fIdx1 :=
        if (st4.individuals.getD i1 emptyConf).fitness
             < (st4.individuals.getD st4.fIdx emptyConf).fitness
        then i1 else st4.fIdx
      let fIdx2 :=
        if (st4.individuals.getD i2 emptyConf).fitness
             < (st4.individuals.getD fIdx1 emptyConf).fitness
        then i2 else fIdx1
      { st4 with fIdx := fIdx2 }

/-- The filling loop of `Population.__init__` (lines 25-35), with the
random encodings drawn by `generateRandomConformation` supplied as a
stream: admit a candidate when its fitness is nonzero and its string is
not yet in the uniqueness index; `none` when the stream runs out first. -/
def initLoop (protein : List Char) :
    List (List Int) → Nat → List Conf → List String →
    Option (List Conf × List String)
  | _, 0, acc, s => some (acc, s)
  | [], _ + 1, _, _ => none
  | e :: rest, k + 1, acc, s =>
    let temp := mkConf protein e
    if temp.fitness ≠ 0 ∧ getConformationString temp ∉ s then
      initLoop protein rest k (acc ++ [temp]) (getConformationString temp :: s)
    else
      initLoop protein rest (k + 1) acc s

/-- `Population.__init__` (lines 7-40): fill the population from the
stream, then set the fittest reference to `individuals[0]` and run
`setFittest`.  `none` also models the `IndexError` the source raises on
`individuals[0]` when the target size is 0. -/
def initPop (protein : List Char) (size : Nat) (stream : List (List Int)) :
    Option PopState :=
  match initLoop protein stream size [] [] with
  | none => none
  | some (inds, s) =>
    match inds with
    | [] => none
    | _ =>
      some { protein := protein, individuals := inds,
             setOfConformations := s, fIdx := setFittestIdx inds,
             p1Idx := 0, p2Idx := 0 }

/-- Modelled exception behaviour of `calcAbsolutePositions` for a
run whose protein has fewer than 2 residues: the source allocates
`[None] * length` and then assigns `absPositions[0]` and
`absPositions[1]` (Conformation.py lines 164-168), so for `length < 2`
it raises an uncaught `IndexError`; `none` models that exception.  No
length validation precedes it anywhere in the source. -/
def calcAbsolutePositionsRun (n : Nat) (enc : List Int) :
    Option (List (Int × Int)) :=
  if n < 2 then none else some (calcAbsolutePositions enc)

/-- The constructor path `Conformation(protein, setOfPoints)` for a
seed encoding `enc`: `generateRandomConformation` calls `calcValidity`,
which calls `calcAbsolutePositions`; `none` is the uncaught
`IndexError` for a protein of length < 2. -/
def conformationNewRun (protein : List Char) (enc : List Int) : Option Conf :=
  match calcAbsolutePositionsRun protein.length enc with
  | none => none
  | some pos =>
    some { length := protein.length, encoding := enc, absPositions := pos,
           fitness := 0, generation := 0, validState := noDupAux [] pos }

/-! Specification-side definitions, written from the words of the spec
and compared with the code-side definitions above. -/

/-- Specification notion of a qualifying hydrophobic contact between
residues `i` and `j`: both tagged hydrophobic and lattice coordinates
at Manhattan distance exactly 1. -/
def isQualContact (protein : List Char) (pos : List (Int × Int))
    (i j : Nat) : Bool :=
  decide (protein.getD i '?' = 'B' ∧ protein.getD j '?' = 'B' ∧
    ((pos.getD i ((0 : Int), (0 : Int))).1 - (pos.getD j ((0 : Int), (0 : Int))).1).natAbs
      + ((pos.getD i ((0 : Int), (0 : Int))).2 - (pos.getD j ((0 : Int), (0 : Int))).2).natAbs = 1)

/-- Specification count of qualifying contacts: the number of pairs
(i, j) with `i < n`, `i + 2 ≤ j < n`, both residues hydrophobic and at
Manhattan distance 1. -/
def qualCount (n : Nat) (protein : List Char) (pos : List (Int × Int)) : Nat :=
  ((List.range n).map
    (fun i => ((List.range' (i + 2) (n - (i + 2))).filter
      (fun j => isQualContact protein pos i j)).length)).sum

/-- Specification rotation of a heading vector by 90 degrees to the
left (counterclockwise, with y increasing upwards). -/
def rotLeft (h : Int × Int) : Int × Int := (-h.2, h.1)

/-- Specification rotation of a heading vector by 90 degrees to the
right (clockwise). -/
def rotRight (h : Int × Int) : Int × Int := (h.2, -h.1)

/-- Specification walk generator: from position `p` with heading `h`,
FORWARD advances one step in the current heading leaving it unchanged;
LEFT and RIGHT advance one step in the rotated heading, which becomes
the new heading. -/
def specWalkAux (p h : Int × Int) : List Int → List (Int × Int)
  | [] => []
  | d :: rest =>
    if d = FORWARD then
      (p.1 + h.1, p.2 + h.2) :: specWalkAux (p.1 + h.1, p.2 + h.2) h rest
    else if d = LEFT then
      (p.1 + (rotLeft h).1, p.2 + (rotLeft h).2)
        :: specWalkAux (p.1 + (rotLeft h).1, p.2 + (rotLeft h).2) (rotLeft h) rest
    else
      (p.1 + (rotRight h).1, p.2 + (rotRight h).2)
        :: specWalkAux (p.1 + (rotRight h).1, p.2 + (rotRight h).2) (rotRight h) rest

/-- Specification positions: residue 0 at (0,0), residue 1 at (0,1),
initial heading up, then the specification walk. -/
def specPositions (enc : List Int) : List (Int × Int) :=
  (0, 0) :: (0, 1) :: specWalkAux (0, 1) (0, 1) enc

/-- Heading vector denoted by a `lastDirection` code of the source:
0 = up, 1 = down, 2 = right, 3 = left. -/
def headingVec (ld : Nat) : Int × Int :=
  if ld = 0 then (0, 1) else if ld = 1 then (0, -1)
  else if ld = 2 then (1, 0) else (-1, 0)

/-- Population invariant of the spec: every member is valid with
strictly negative fitness, member encoding strings are pairwise
distinct, and every member string is recorded in the uniqueness
index. -/
def PopInv (st : PopState) : Prop :=
  (∀ c ∈ st.individuals, c.validState = true)
  ∧ (∀ c ∈ st.individuals, c.fitness < 0)
  ∧ (st.individuals.map getConformationString).Nodup
  ∧ (∀ c ∈ st.individuals, getConformationString c ∈ st.setOfConformations)

/-- Fittest-tracking invariant: the `theFittest` reference designates a
member slot, and that member has minimal fitness in the population. -/
def FitInv (st : PopState) : Prop :=
  st.fIdx < st.individuals.length
  ∧ ∀ c ∈ st.individuals, (getFittest st).fitness ≤ c.fitness

/-- Constraint satisfied by the random draws of one generation step on
a population of `n` members: `random.sample` returns nonempty index
samples into the member list. -/
def oracleOK (n : Nat) (o : Oracle) : Prop :=
  o.sample1 ≠ [] ∧ (∀ i ∈ o.sample1, i < n)
  ∧ o.sample2 ≠ [] ∧ (∀ i ∈ o.sample2, i < n)

/-- A sequence of generation steps. -/
def popIterate (st : PopState) (os : List Oracle) : PopState :=
  os.foldl popStep st

/-! Concrete data used by witnesses and counterexamples: the
all-hydrophobic protein of six residues and some of its conformations,
with fitness values checked by evaluation. -/

/-- Protein "BBBBBB": six hydrophobic residues. -/
def cPr : List Char := ['B', 'B', 'B', 'B', 'B', 'B']

/-- Conformation with encoding string "RRLR", valid, fitness -1. -/
def confA : Conf := mkConf cPr [1, 1, -1, 1]

/-- Conformation with encoding string "LLRL", valid, fitness -1. -/
def confB : Conf := mkConf cPr [-1, -1, 1, -1]

/-- Conformation with encoding string "FRRL", valid, fitness -1. -/
def confC : Conf := mkConf cPr [0, 1, 1, -1]

/-- A three-member population over `cPr` holding `confA`, `confB`,
`confC`, with the uniqueness index recording exactly the member
strings. -/
def cState : PopState :=
  { protein := cPr, individuals := [confA, confB, confC],
    setOfConformations := ["RRLR", "LLRL", "FRRL"],
    fIdx := 0, p1Idx := 0, p2Idx := 0 }

/-- A generation-step oracle for `cState`: both tournaments sample all
three members (selecting `confA` then `confB`), no early exit, child1
breakpoint 3 (yielding encoding "RRLL" of fitness -2), child2
breakpoint 0 (yielding encoding "RRLR", already in the index), no
mutation. -/
def cOracle : Oracle :=
  { sample1 := [0, 1, 2], skip1 := false, sample2 := [1, 2, 0],
    skip2 := false, k1 := 3, k2 := 0,
    m1 := fun _ => none, m2 := fun _ => none }

/-- A two-member population over `cPr` holding `confA` and `confB`
(both of fitness -1), its index recording exactly the member strings. -/
def c6State : PopState :=
  { protein := cPr, individuals := [confA, confB],
    setOfConformations := ["RRLR", "LLRL"],
    fIdx := 0, p1Idx := 0, p2Idx := 0 }

/-- The population state `initPop cPr 3 [[1,1,-1,1], [-1,-1,1,-1],
[0,1,1,-1]]` evaluates to: all three candidates admitted, fittest slot
0. -/
def cInitState : PopState :=
  { protein := cPr, individuals := [confA, confB, confC],
    setOfConformations := ["FRRL", "LLRL", "RRLR"],
    fIdx := 0, p1Idx := 0, p2Idx := 0 }

/-! Generic folding lemmas. -/

lemma foldl_sub (F : Int → Nat → Int) (G : Nat → Nat)
    (hFG : ∀ a j, F a j = a - G j) :
    ∀ (l : List Nat) (a : Int), l.foldl F a = a - ((l.map G).sum : Int) := by
  intro l
  induction l with
  | nil => intro a; simp
  | cons j t ih =>
    intro a
    simp only [List.foldl_cons, List.map_cons, List.sum_cons, hFG, ih]
    push_cast
    ring

lemma sum_map_ite (p : Nat → Bool) :
    ∀ l : List Nat,
      (l.map (fun j => if p j then (1 : Nat) else 0)).sum = (l.filter p).length := by
  intro l
  induction l with
  | nil => rfl
  | cons j t ih =>
    by_cases hj : p j <;> simp [List.filter_cons, hj, ih] <;> omega

/-! Fitness lemmas (claim C1). -/

lemma contactStep_eq (pr : List Char) (pos : List (Int × Int)) (i : Nat)
    (hi : pr.getD i '?' = 'B') (a : Int) (j : Nat) :
    contactStep pr pos (pos.getD i ((0 : Int), (0 : Int))) a j
      = a - (if isQualContact pr pos i j then (1 : Nat) else 0) := by
  by_cases hj : pr.getD j '?' = 'B'
  · simp only [contactStep, isQualContact, hi, hj, if_true, true_and,
      decide_eq_true_eq]
    split_ifs with h1 h2 h3 <;> omega
  · simp only [contactStep, isQualContact, decide_eq_true_eq]
    rw [if_neg hj, if_neg (fun h => hj h.2.1)]
    simp

lemma inner_foldl_eq (pr : List Char) (pos : List (Int × Int)) (i : Nat)
    (hi : pr.getD i '?' = 'B') (l : List Nat) (a : Int) :
    l.foldl (contactStep pr pos (pos.getD i ((0 : Int), (0 : Int)))) a
      = a - ((l.filter (fun j => isQualContact pr pos i j)).length : Int) := by
  rw [foldl_sub _ (fun j => if isQualContact pr pos i j then (1 : Nat) else 0)
        (contactStep_eq pr pos i hi) l a,
      sum_map_ite (fun j => isQualContact pr pos i j) l]

lemma isQualContact_false_of_not_B (pr : List Char) (pos : List (Int × Int))
    (i j : Nat) (hi : ¬ pr.getD i '?' = 'B') :
    isQualContact pr pos i j = false := by
  simp only [isQualContact, decide_eq_false_iff_not]
  intro h
  exact hi h.1

lemma calcFitness_eq (n : Nat) (pr : List Char) (pos : List (Int × Int)) :
    calcFitness n pr pos = -(qualCount n pr pos : Int) := by
  unfold calcFitness qualCount
  rw [foldl_sub _
        (fun i => ((List.range' (i + 2) (n - (i + 2))).filter
          (fun j => isQualContact pr pos i j)).length)]
  · simp
  · intro a i
    by_cases hi : pr.getD i '?' = 'B'
    · rw [if_pos hi, inner_foldl_eq pr pos i hi]
    · rw [if_neg hi]
      have : ((List.range' (i + 2) (n - (i + 2))).filter
          (fun j => isQualContact pr pos i j)) = [] := by
        rw [List.filter_eq_nil_iff]
        intro j _
        simp [isQualContact_false_of_not_B pr pos i j hi]
      rw [this]
      simp

lemma calcFitness_nonpos (n : Nat) (pr : List Char) (pos : List (Int × Int)) :
    calcFitness n pr pos ≤ 0 := by
  rw [calcFitness_eq]
  omega

/-- Claim C1: for positions recomputed from the encoding, `calcFitness`
returns the negation of the exact number of residue pairs (i, j) with
`j ≥ i + 2`, both hydrophobic, at Manhattan distance 1; hence fitness
is always ≤ 0, and a residue not tagged hydrophobic belongs to no
qualifying pair. -/
theorem calcFitness_contact_energy (n : Nat) (protein : List Char) (enc : List Int) :
    calcFitness n protein (calcAbsolutePositions enc)
        = -(qualCount n protein (calcAbsolutePositions enc) : Int)
    ∧ calcFitness n protein (calcAbsolutePositions enc) ≤ 0
    ∧ ∀ i j, isQualContact protein (calcAbsolutePositions enc) i j = true →
        protein.getD i '?' = 'B' ∧ protein.getD j '?' = 'B' := by
  refine ⟨calcFitness_eq _ _ _, calcFitness_nonpos _ _ _, ?_⟩
  intro i j h
  simp only [isQualContact, decide_eq_true_eq] at h
  exact ⟨h.1, h.2.1⟩

/-- Witness for C1 at the protein "BBBBBB" and the encoding "RRLL". -/
theorem calcFitness_contact_energy_w :
    calcFitness 6 cPr (calcAbsolutePositions [1, 1, -1, -1])
        = -(qualCount 6 cPr (calcAbsolutePositions [1, 1, -1, -1]) : Int)
    ∧ calcFitness 6 cPr (calcAbsolutePositions [1, 1, -1, -1]) ≤ 0 :=
  ⟨(calcFitness_contact_energy 6 cPr [1, 1, -1, -1]).1,
   (calcFitness_contact_energy 6 cPr [1, 1, -1, -1]).2.1⟩

/-! Walk reconstruction lemmas (claim C2). -/

lemma walkAux_length : ∀ (enc : List Int) (x y : Int) (ld : Nat),
    (walkAux x y ld enc).length = enc.length := by
  intro enc
  induction enc with
  | nil => intro x y ld; rfl
  | cons d rest ih => intro x y ld; simp [walkAux, ih]

lemma walkAux_spec (enc : List Int) :
    ∀ (x y : Int) (ld : Nat), ld < 4 →
    (∀ d ∈ enc, d = LEFT ∨ d = FORWARD ∨ d = RIGHT) →
    walkAux x y ld enc = specWalkAux (x, y) (headingVec ld) enc := by
  induction enc with
  | nil => intro x y ld _ _; rfl
  | cons d rest ih =>
    intro x y ld hld hmem
    have hd := hmem d (List.mem_cons_self d rest)
    have hrest : ∀ e ∈ rest, e = LEFT ∨ e = FORWARD ∨ e = RIGHT :=
      fun e he => hmem e (List.mem_cons_of_mem d he)
    interval_cases ld <;> rcases hd with hd | hd | hd <;> subst hd <;>
      simp only [walkAux, stepPos, specWalkAux, headingVec, rotLeft, rotRight,
        FORWARD, LEFT, RIGHT, sub_eq_add_neg, List.cons.injEq, Prod.mk.injEq] <;>
      norm_num <;>
      first
        | exact ih _ _ 0 (by norm_num) hrest
        | exact ih _ _ 1 (by norm_num) hrest
        | exact ih _ _ 2 (by norm_num) hrest
        | exact ih _ _ 3 (by norm_num) hrest

/-- Claim C2: `calcAbsolutePositions` is the deterministic finite-state
walk of the spec: residue 0 at (0,0), residue 1 at (0,1) with initial
heading up; FORWARD advances in the current heading, LEFT/RIGHT advance
in (and switch to) the heading rotated 90 degrees left/right; the
result has one coordinate per residue, and recomputation is trivially
identical since the function is pure. -/
theorem calcAbsolutePositions_walk (enc : List Int)
    (h : ∀ d ∈ enc, d = LEFT ∨ d = FORWARD ∨ d = RIGHT) :
    calcAbsolutePositions enc = specPositions enc
    ∧ (calcAbsolutePositions enc).length = enc.length + 2
    ∧ (calcAbsolutePositions enc).getD 0 ((9 : Int), (9 : Int)) = (0, 0)
    ∧ (calcAbsolutePositions enc).getD 1 ((9 : Int), (9 : Int)) = (0, 1)
    ∧ calcAbsolutePositions enc = calcAbsolutePositions enc := by
  refine ⟨?_, ?_, rfl, rfl, rfl⟩
  · unfold calcAbsolutePositions specPositions
    have : headingVec 0 = ((0 : Int), (1 : Int)) := rfl
    rw [walkAux_spec enc 0 1 0 (by norm_num) h, this]
  · simp [calcAbsolutePositions, walkAux_length]

/-- Witness for C2 at the encoding "RRLL". -/
theorem calcAbsolutePositions_walk_w :
    calcAbsolutePositions [1, 1, -1, -1] = specPositions [1, 1, -1, -1]
    ∧ (calcAbsolutePositions [1, 1, -1, -1]).length = 6 :=
  ⟨(calcAbsolutePositions_walk [1, 1, -1, -1] (by decide)).1,
   (calcAbsolutePositions_walk [1, 1, -1, -1] (by decide)).2.1⟩

/-! Validity lemmas (claim C3). -/

lemma noDupAux_iff : ∀ (l seen : List (Int × Int)),
    noDupAux seen l = true ↔ l.Nodup ∧ ∀ p ∈ l, p ∉ seen := by
  intro l
  induction l with
  | nil => intro seen; simp [noDupAux]
  | cons p rest ih =>
    intro seen
    by_cases hp : p ∈ seen
    · simp only [noDupAux, if_pos hp]
      constructor
      · intro h; cases h
      · intro h
        exact ((h.2 p (List.mem_cons_self p rest)) hp).elim
    · rw [show noDupAux seen (p :: rest)
            = if p ∈ seen then false else noDupAux (p :: seen) rest from rfl,
          if_neg hp, ih]
      constructor
      · rintro ⟨hnd, hni⟩
        constructor
        · rw [List.nodup_cons]
          exact ⟨fun hpin => (hni p hpin) (List.mem_cons_self p seen), hnd⟩
        · intro q hq
          rcases List.mem_cons.mp hq with rfl | hq2
          · exact hp
          · intro hqs
            exact (hni q hq2) (List.mem_cons_of_mem p hqs)
      · rintro ⟨hnd, hns⟩
        rw [List.nodup_cons] at hnd
        refine ⟨hnd.2, fun q hq hqps => ?_⟩
        rcases List.mem_cons.mp hqps with rfl | hqs
        · exact hnd.1 hq
        · exact (hns q (List.mem_cons_of_mem p hq)) hqs

/-- Claim C3: `calcValidity` answers true exactly when the recomputed
positions are pairwise distinct: every pair of residue indices,
adjacent or not, is tested, and the flag is true iff no two positions
coincide. -/
theorem calcValidity_iff_self_avoiding (enc : List Int) :
    calcValidity enc = true ↔
      ∀ i j : Fin (calcAbsolutePositions enc).length,
        i ≠ j →
          (calcAbsolutePositions enc).get i ≠ (calcAbsolutePositions enc).get j := by
  unfold calcValidity
  rw [noDupAux_iff]
  simp only [List.not_mem_nil, not_false_iff, implies_true, and_true]
  rw [List.nodup_iff_injective_get]
  constructor
  · intro hinj i j hne heq
    exact hne (hinj heq)
  · intro h a b hab
    by_contra hne
    exact h a b hne hab

/-- Witness for C3 at the encoding "RRLR". -/
theorem calcValidity_iff_self_avoiding_w :
    calcValidity [1, 1, -1, 1] = true :=
  (calcValidity_iff_self_avoiding [1, 1, -1, 1]).mpr (by decide)

/-! Crossover splice lemmas (claim C5). -/

lemma copy_foldl (src : List Int) :
    ∀ (b a : Nat) (dst : List Int), a + b ≤ dst.length → a + b ≤ src.length →
    (List.range' a b).foldl (fun acc i => acc.set i (src.getD i 0)) dst
      = dst.take a ++ (src.drop a).take b ++ dst.drop (a + b) := by
  intro b
  induction b with
  | zero =>
    intro a dst _ _
    simp [List.take_append_drop]
  | succ m ih =>
    intro a dst hdst hsrc
    have ha : a < dst.length := by omega
    have ha2 : a < src.length := by omega
    rw [List.range'_succ, List.foldl_cons]
    rw [ih (a + 1) (dst.set a (src.getD a 0))
          (by simp only [List.length_set]; omega) (by omega)]
    have hset : dst.set a (src.getD a 0)
        = dst.take a ++ src.getD a 0 :: dst.drop (a + 1) :=
      List.set_eq_take_cons_drop _ ha
    have hlen : (dst.take a).length = a := by
      simp only [List.length_take]
      omega
    have htake : (dst.set a (src.getD a 0)).take (a + 1)
        = dst.take a ++ [src.getD a 0] := by
      rw [hset, List.take_append_eq_append_take, hlen]
      rw [show a + 1 - a = 1 from by omega]
      have h4 : (dst.take a).take (a + 1) = dst.take a := by
        apply List.take_of_length_le
        rw [hlen]
        omega
      rw [h4]
      rfl
    have hdrop : (dst.set a (src.getD a 0)).drop (a + 1 + m)
        = dst.drop (a + 1 + m) := by
      rw [List.drop_set, if_pos (by omega)]
    have hsrcdrop : (src.drop a).take (m + 1)
        = src.getD a 0 :: (src.drop (a + 1)).take m := by
      have hda : src.drop a = src.getD a 0 :: src.drop (a + 1) := by
        rw [List.drop_eq_getElem_cons ha2]
        congr 1
        rw [List.getD_eq_getElem?_getD, List.getElem?_eq_getElem ha2]
        rfl
      rw [hda, List.take_succ_cons]
    rw [htake, hdrop, hsrcdrop]
    rw [show a + 1 + m = a + (m + 1) from by omega]
    simp [List.append_assoc]

lemma crossEncoding_eq (len k : Nat) (e1 e2 : List Int)
    (h1 : e1.length = len) (h2 : e2.length = len) (hk : k ≤ len) :
    crossEncoding len k e1 e2 = e1.take k ++ e2.drop k := by
  rw [show crossEncoding len k e1 e2
        = (List.range' k (len - k)).foldl
            (fun acc i => acc.set i (e2.getD i 0))
            ((List.range' 0 k).foldl
              (fun acc i => acc.set i (e1.getD i 0))
              (List.replicate len (0 : Int))) from rfl]
  rw [copy_foldl e1 k 0 (List.replicate len 0)
        (by simp only [List.length_replicate]; omega) (by omega)]
  simp only [List.take_zero, List.drop_zero, List.nil_append,
    List.drop_replicate, Nat.zero_add]
  have hlen1 : (e1.take k).length = k := by
    simp only [List.length_take]
    omega
  have hmid : (e1.take k ++ List.replicate (len - k) (0 : Int)).length = len := by
    simp only [List.length_append, List.length_replicate, hlen1]
    omega
  rw [copy_foldl e2 (len - k) k _ (by rw [hmid]; omega) (by omega)]
  have htk : (e1.take k ++ List.replicate (len - k) (0 : Int)).take k
      = e1.take k := by
    rw [List.take_append_eq_append_take, List.take_take, hlen1]
    simp
  have hdp : (e1.take k ++ List.replicate (len - k) (0 : Int)).drop
      (k + (len - k)) = [] := by
    apply List.drop_eq_nil_of_le
    rw [hmid]
    omega
  have hta : (e2.drop k).take (len - k) = e2.drop k := by
    apply List.take_of_length_le
    simp only [List.length_drop]
    omega
  rw [htk, hdp, hta]
  simp

/-- Claim C5: for parents of common residue count, `Conformation.crossover`
at a breakpoint `k` drawn from `[0, length - 3]` (which is the single
value 0 when `length - 2 ≤ 0`) produces exactly one child whose encoding
is parent1's loci below `k` followed by parent2's loci from `k` on, of
length `length - 2`; the child's generation is the floor-averaged parent
generation plus one; and with the parents swapped the same breakpoint
yields the complementary splice. -/
theorem crossover_splice (p1 p2 : Conf) (k : Nat)
    (hn : p2.length = p1.length)
    (h1 : p1.encoding.length = p1.length - 2)
    (h2 : p2.encoding.length = p1.length - 2)
    (hk : k ≤ p1.length - 3) :
    (crossoverConf p1 p2 k).encoding
        = p1.encoding.take k ++ p2.encoding.drop k
    ∧ (crossoverConf p1 p2 k).encoding.length = p1.length - 2
    ∧ (crossoverConf p1 p2 k).generation
        = (p1.generation + p2.generation) / 2 + 1
    ∧ (crossoverConf p2 p1 k).encoding
        = p2.encoding.take k ++ p1.encoding.drop k := by
  have hk2 : k ≤ p1.length - 2 := by omega
  have hsplice : (crossoverConf p1 p2 k).encoding
      = p1.encoding.take k ++ p2.encoding.drop k :=
    crossEncoding_eq (p1.length - 2) k p1.encoding p2.encoding h1 h2 hk2
  refine ⟨hsplice, ?_, rfl, ?_⟩
  · rw [hsplice]
    simp
    omega
  · exact crossEncoding_eq (p2.length - 2) k p2.encoding p1.encoding
      (by omega) (by omega) (by omega)

/-- Witness for C5 at the parents `confA`, `confB` and breakpoint 3. -/
theorem crossover_splice_w :
    (crossoverConf confA confB 3).encoding
        = confA.encoding.take 3 ++ confB.encoding.drop 3
    ∧ (crossoverConf confA confB 3).generation = 1 :=
  ⟨(crossover_splice confA confB 3 (by decide) (by decide) (by decide)
      (by decide)).1,
   (crossover_splice confA confB 3 (by decide) (by decide) (by decide)
      (by decide)).2.2.1⟩

/-! Tournament selection lemmas (claim C7). -/

lemma bestIdx_spec (inds : List Conf) :
    ∀ (l : List Nat) (s : Nat),
      (bestIdx inds s l = s ∨ bestIdx inds s l ∈ l)
      ∧ (inds.getD (bestIdx inds s l) emptyConf).fitness
          ≤ (inds.getD s emptyConf).fitness
      ∧ ∀ j ∈ l, (inds.getD (bestIdx inds s l) emptyConf).fitness
          ≤ (inds.getD j emptyConf).fitness := by
  intro l
  induction l with
  | nil =>
    intro s
    refine ⟨Or.inl rfl, le_refl _, ?_⟩
    intro j hj
    cases hj
  | cons j t ih =>
    intro s
    have hstep : bestIdx inds s (j :: t)
        = bestIdx inds
            (if (inds.getD j emptyConf).fitness
                < (inds.getD s emptyConf).fitness then j else s) t := rfl
    by_cases hc : (inds.getD j emptyConf).fitness
        < (inds.getD s emptyConf).fitness
    · rw [hstep, if_pos hc]
      obtain ⟨hm, hle, hall⟩ := ih j
      refine ⟨?_, ?_, ?_⟩
      · rcases hm with hm | hm
        · exact Or.inr (by rw [hm]; exact List.mem_cons_self j t)
        · exact Or.inr (List.mem_cons_of_mem j hm)
      · exact le_trans hle (le_of_lt hc)
      · intro q hq
        rcases List.mem_cons.mp hq with rfl | hq2
        · exact hle
        · exact hall q hq2
    · rw [hstep, if_neg hc]
      obtain ⟨hm, hle, hall⟩ := ih s
      refine ⟨?_, hle, ?_⟩
      · rcases hm with hm | hm
        · exact Or.inl hm
        · exact Or.inr (List.mem_cons_of_mem j hm)
      · intro q hq
        rcases List.mem_cons.mp hq with rfl | hq2
        · exact le_trans hle (le_of_not_lt hc)
        · exact hall q hq2

/-- Claim C7: when the population has at least `t` members,
`tournamentSelect` applied to a size-`t` duplicate-free index sample
into the member list returns a sampled member of minimal fitness among
the sample; in particular the returned conformation is a member
currently present in the population. -/
theorem tournament_select_min (inds : List Conf) (sample : List Nat) (t : Nat)
    (hlen : sample.length = t)
    (hpos : 0 < t)
    (hnd : sample.Nodup)
    (hidx : ∀ i ∈ sample, i < inds.length)
    (hsize : t ≤ inds.length) :
    tournamentSelectIdx inds sample ∈ sample
    ∧ (∀ j ∈ sample,
        (inds.getD (tournamentSelectIdx inds sample) emptyConf).fitness
          ≤ (inds.getD j emptyConf).fitness)
    ∧ inds.getD (tournamentSelectIdx inds sample) emptyConf ∈ inds := by
  match sample, hlen with
  | [], hlen => simp at hlen; omega
  | s :: rest, _ =>
    have hspec := bestIdx_spec inds rest s
    have hmem : tournamentSelectIdx inds (s :: rest) ∈ s :: rest := by
      rcases hspec.1 with hm | hm
      · rw [show tournamentSelectIdx inds (s :: rest) = bestIdx inds s rest
              from rfl, hm]
        exact List.mem_cons_self s rest
      · exact List.mem_cons_of_mem s hm
    refine ⟨hmem, ?_, ?_⟩
    · intro j hj
      rcases List.mem_cons.mp hj with rfl | hj2
      · exact hspec.2.1
      · exact hspec.2.2 j hj2
    · have hlt : tournamentSelectIdx inds (s :: rest) < inds.length :=
        hidx _ hmem
      rw [List.getD_eq_getElem?_getD, List.getElem?_eq_getElem hlt]
      exact List.getElem_mem _

/-- Witness for C7: a three-member tournament over `cState`'s member
list. -/
theorem tournament_select_min_w :
    tournamentSelectIdx [confA, confB, confC] [0, 1, 2] ∈ [0, 1, 2]
    ∧ [confA, confB, confC].getD
        (tournamentSelectIdx [confA, confB, confC] [0, 1, 2]) emptyConf
        ∈ [confA, confB, confC] :=
  ⟨(tournament_select_min [confA, confB, confC] [0, 1, 2] 3 (by decide)
      (by decide) (by decide) (by decide) (by decide)).1,
   (tournament_select_min [confA, confB, confC] [0, 1, 2] 3 (by decide)
      (by decide) (by decide) (by decide) (by decide)).2.2⟩

/-! Replacement-block lemmas (claims C4, C6, C9, C10). -/

lemma getD_set_ne (l : List Conf) (i j : Nat) (c : Conf) (h : i ≠ j) :
    (l.set i c).getD j emptyConf = l.getD j emptyConf := by
  simp [List.getD_eq_getElem?_getD, List.getElem?_set_ne h]

lemma getD_set_self_le (l : List Conf) (i : Nat) (c : Conf)
    (h : c.fitness ≤ (l.getD i emptyConf).fitness) :
    ((l.set i c).getD i emptyConf).fitness ≤ (l.getD i emptyConf).fitness := by
  rcases lt_or_ge i l.length with hi | hi
  · rw [List.getD_eq_getElem?_getD, List.getElem?_set_self hi]
    exact h
  · rw [List.set_eq_of_length_le hi]

lemma nodup_set_of_not_mem {α : Type} :
    ∀ (l : List α) (i : Nat) (x : α), l.Nodup → x ∉ l → (l.set i x).Nodup := by
  intro l
  induction l with
  | nil => intro i x _ _; simp
  | cons hd t ih =>
    intro i x hnd hx
    rcases i with _ | i
    · rw [List.set_cons_zero]
      rw [List.nodup_cons] at hnd ⊢
      exact ⟨fun hin => hx (List.mem_cons_of_mem hd hin), hnd.2⟩
    · rw [List.set_cons_succ]
      rw [List.nodup_cons] at hnd ⊢
      refine ⟨?_, ih i x hnd.2 (fun hin => hx (List.mem_cons_of_mem hd hin))⟩
      intro hin
      rcases List.mem_or_eq_of_mem_set hin with hin2 | rfl
      · exact hnd.1 hin2
      · exact hx (List.mem_cons_self _ _)

lemma attemptReplace_length (pr : List Char) (st : PopState) (child : Conf)
    (a b : Nat) :
    (attemptReplace pr st child a b).individuals.length
      = st.individuals.length := by
  unfold attemptReplace
  dsimp only
  split_ifs <;> simp

lemma attemptReplace_fIdx (pr : List Char) (st : PopState) (child : Conf)
    (a b : Nat) :
    (attemptReplace pr st child a b).fIdx = st.fIdx := by
  unfold attemptReplace
  dsimp only
  split_ifs <;> rfl

lemma attemptReplace_protein (pr : List Char) (st : PopState) (child : Conf)
    (a b : Nat) :
    (attemptReplace pr st child a b).protein = st.protein := by
  unfold attemptReplace
  dsimp only
  split_ifs <;> rfl

lemma attemptReplace_superset (pr : List Char) (st : PopState) (child : Conf)
    (a b : Nat) :
    st.setOfConformations ⊆ (attemptReplace pr st child a b).setOfConformations := by
  unfold attemptReplace
  dsimp only
  split_ifs <;>
    first
      | exact fun x hx => hx
      | exact List.subset_cons_self _ _

lemma attemptReplace_strings (pr : List Char) (st : PopState) (child : Conf)
    (a b : Nat)
    (h : ∀ c ∈ st.individuals, getConformationString c ∈ st.setOfConformations) :
    ∀ c ∈ (attemptReplace pr st child a b).individuals,
      getConformationString c ∈ (attemptReplace pr st child a b).setOfConformations := by
  unfold attemptReplace
  dsimp only
  split_ifs with hv hmem hfa hfb
  · exact h
  · intro c hc
    rcases List.mem_or_eq_of_mem_set hc with hc2 | rfl
    · exact List.mem_cons_of_mem _ (h c hc2)
    · exact List.mem_cons_self _ _
  · intro c hc
    rcases List.mem_or_eq_of_mem_set hc with hc2 | rfl
    · exact List.mem_cons_of_mem _ (h c hc2)
    · exact List.mem_cons_self _ _
  · intro c hc
    exact List.mem_cons_of_mem _ (h c hc)
  · exact h

lemma attemptReplace_popInv (pr : List Char) (st : PopState) (child : Conf)
    (a b : Nat) (h : PopInv st) : PopInv (attemptReplace pr st child a b) := by
  obtain ⟨hval, hneg, hnd, hsub⟩ := h
  have hnewstr : getConformationString
      { child with fitness := calcFitness child.length pr child.absPositions }
      = getConformationString child := rfl
  unfold attemptReplace
  dsimp only
  split_ifs with hv hmem hfa hfb
  · exact ⟨hval, hneg, hnd, hsub⟩
  · -- replace the own parent slot `a`
    have hfit0 : (st.individuals.getD a emptyConf).fitness ≤ 0 := by
      rcases lt_or_ge a st.individuals.length with ha | ha
      · rw [List.getD_eq_getElem?_getD, List.getElem?_eq_getElem ha]
        exact le_of_lt (hneg _ (List.getElem_mem _))
      · rw [List.getD_eq_getElem?_getD, List.getElem?_eq_none ha]
        exact le_refl _
    have hstr_notin : getConformationString
        { child with fitness := calcFitness child.length pr child.absPositions }
        ∉ st.individuals.map getConformationString := by
      intro hin
      obtain ⟨c, hc, hceq⟩ := List.mem_map.mp hin
      exact hmem (hceq ▸ hsub c hc)
    refine ⟨?_, ?_, ?_, ?_⟩
    · intro c hc
      rcases List.mem_or_eq_of_mem_set hc with hc2 | rfl
      · exact hval c hc2
      · exact hv
    · intro c hc
      rcases List.mem_or_eq_of_mem_set hc with hc2 | rfl
      · exact hneg c hc2
      · exact lt_of_lt_of_le hfa hfit0
    · rw [List.map_set]
      exact nodup_set_of_not_mem _ a _ hnd hstr_notin
    · intro c hc
      rcases List.mem_or_eq_of_mem_set hc with hc2 | rfl
      · exact List.mem_cons_of_mem _ (hsub c hc2)
      · exact List.mem_cons_self _ _
  · -- replace the other parent slot `b`
    have hfit0 : (st.individuals.getD b emptyConf).fitness ≤ 0 := by
      rcases lt_or_ge b st.individuals.length with hb | hb
      · rw [List.getD_eq_getElem?_getD, List.getElem?_eq_getElem hb]
        exact le_of_lt (hneg _ (List.getElem_mem _))
      · rw [List.getD_eq_getElem?_getD, List.getElem?_eq_none hb]
        exact le_refl _
    have hstr_notin : getConformationString
        { child with fitness := calcFitness child.length pr child.absPositions }
        ∉ st.individuals.map getConformationString := by
      intro hin
      obtain ⟨c, hc, hceq⟩ := List.mem_map.mp hin
      exact hmem (hceq ▸ hsub c hc)
    refine ⟨?_, ?_, ?_, ?_⟩
    · intro c hc
      rcases List.mem_or_eq_of_mem_set hc with hc2 | rfl
      · exact hval c hc2
      · exact hv
    · intro c hc
      rcases List.mem_or_eq_of_mem_set hc with hc2 | rfl
      · exact hneg c hc2
      · exact lt_of_lt_of_le hfb hfit0
    · rw [List.map_set]
      exact nodup_set_of_not_mem _ b _ hnd hstr_notin
    · intro c hc
      rcases List.mem_or_eq_of_mem_set hc with hc2 | rfl
      · exact List.mem_cons_of_mem _ (hsub c hc2)
      · exact List.mem_cons_self _ _
  · -- registered but no replacement
    exact ⟨hval, hneg, hnd, fun c hc => List.mem_cons_of_mem _ (hsub c hc)⟩
  · exact ⟨hval, hneg, hnd, hsub⟩

/-! Generation-step and initialization invariants (claim C4). -/

lemma withFIdx_inds (s : PopState) (i : Nat) :
    ({s with fIdx := i} : PopState).individuals = s.individuals := rfl

lemma withFIdx_set (s : PopState) (i : Nat) :
    ({s with fIdx := i} : PopState).setOfConformations = s.setOfConformations := rfl

lemma popStep_popInv (st : PopState) (o : Oracle) (h : PopInv st) :
    PopInv (popStep st o) := by
  unfold popStep
  dsimp only
  by_cases h1 : o.skip1 = true
  · rw [if_pos h1]
    exact h
  · rw [if_neg h1]
    by_cases h2 : o.skip2 = true
    · rw [if_pos h2]
      exact h
    · rw [if_neg h2]
      exact attemptReplace_popInv _ _ _ _ _ (attemptReplace_popInv _ _ _ _ _ h)

lemma popStep_length (st : PopState) (o : Oracle) :
    (popStep st o).individuals.length = st.individuals.length := by
  unfold popStep
  dsimp only
  by_cases h1 : o.skip1 = true
  · rw [if_pos h1]
  · rw [if_neg h1]
    by_cases h2 : o.skip2 = true
    · rw [if_pos h2]
    · rw [if_neg h2]
      rw [show ∀ (s : PopState) (i : Nat),
            ({s with fIdx := i} : PopState).individuals = s.individuals
          from fun _ _ => rfl]
      rw [attemptReplace_length, attemptReplace_length]

lemma initLoop_spec (pr : List Char) :
    ∀ (stream : List (List Int)) (k : Nat) (acc : List Conf) (s : List String),
      (∀ e ∈ stream, noDupAux [] (calcAbsolutePositions e) = true) →
      (∀ c ∈ acc, c.validState = true) →
      (∀ c ∈ acc, c.fitness < 0) →
      (acc.map getConformationString).Nodup →
      (∀ c ∈ acc, getConformationString c ∈ s) →
      ∀ res, initLoop pr stream k acc s = some res →
        res.1.length = acc.length + k
        ∧ (∀ c ∈ res.1, c.validState = true)
        ∧ (∀ c ∈ res.1, c.fitness < 0)
        ∧ (res.1.map getConformationString).Nodup
        ∧ (∀ c ∈ res.1, getConformationString c ∈ res.2) := by
  intro stream
  induction stream with
  | nil =>
    intro k acc s _ hval hneg hnd hsub res hres
    rcases k with _ | k
    · rw [show initLoop pr [] 0 acc s = some (acc, s) from rfl] at hres
      obtain rfl : (acc, s) = res := Option.some.inj hres
      exact ⟨by simp, hval, hneg, hnd, hsub⟩
    · rw [show initLoop pr [] (k + 1) acc s = none from rfl] at hres
      cases hres
  | cons e rest ih =>
    intro k acc s hs hval hneg hnd hsub res hres
    rcases k with _ | k
    · rw [show initLoop pr (e :: rest) 0 acc s = some (acc, s) from rfl] at hres
      obtain rfl : (acc, s) = res := Option.some.inj hres
      exact ⟨by simp, hval, hneg, hnd, hsub⟩
    · simp only [initLoop] at hres
      have hrest : ∀ x ∈ rest, noDupAux [] (calcAbsolutePositions x) = true :=
        fun x hx => hs x (List.mem_cons_of_mem e hx)
      by_cases hcond : (mkConf pr e).fitness ≠ 0
          ∧ getConformationString (mkConf pr e) ∉ s
      · rw [if_pos hcond] at hres
        have hvalid : (mkConf pr e).validState = true :=
          hs e (List.mem_cons_self e rest)
        have hnegt : (mkConf pr e).fitness < 0 := by
          have hle : (mkConf pr e).fitness ≤ 0 :=
            calcFitness_nonpos pr.length pr (calcAbsolutePositions e)
          have hne := hcond.1
          omega

        obtain ⟨hlen2, hval2, hneg2, hnd2, hsub2⟩ :=
          ih k (acc ++ [mkConf pr e]) (getConformationString (mkConf pr e) :: s)
            hrest
            (by
              intro c hc
              rcases List.mem_append.mp hc with hc2 | hc2
              · exact hval c hc2
              · rw [List.mem_singleton.mp hc2]
                exact hvalid)
            (by
              intro c hc
              rcases List.mem_append.mp hc with hc2 | hc2
              · exact hneg c hc2
              · rw [List.mem_singleton.mp hc2]
                exact hnegt)
            (by
              rw [List.map_append, List.nodup_append]
              refine ⟨hnd, List.nodup_singleton _, ?_⟩
              intro x hx hx2
              obtain ⟨c, hc, hceq⟩ := List.mem_map.mp hx
              rw [List.map_singleton, List.mem_singleton] at hx2
              exact hcond.2 (hx2 ▸ hceq ▸ hsub c hc))
            (by
              intro c hc
              rcases List.mem_append.mp hc with hc2 | hc2
              · exact List.mem_cons_of_mem _ (hsub c hc2)
              · rw [List.mem_singleton.mp hc2]
                exact List.mem_cons_self _ _)
            res hres
        refine ⟨?_, hval2, hneg2, hnd2, hsub2⟩
        rw [hlen2]
        simp
        omega
      · rw [if_neg hcond] at hres
        exact ih (k + 1) acc s hrest hval hneg hnd hsub res hres

lemma initPop_spec (pr : List Char) (size : Nat) (stream : List (List Int))
    (st : PopState)
    (hs : ∀ e ∈ stream, noDupAux [] (calcAbsolutePositions e) = true)
    (h : initPop pr size stream = some st) :
    st.individuals.length = size ∧ PopInv st ∧ FitInv st := by
  unfold initPop at h
  rcases hloop : initLoop pr stream size [] [] with _ | res
  · rw [hloop] at h
    cases h
  · rw [hloop] at h
    obtain ⟨inds, s⟩ := res
    rcases hinds : inds with _ | ⟨c0, tail⟩
    · rw [hinds] at h
      cases h
    · rw [hinds] at h
      obtain rfl := Option.some.inj h
      obtain ⟨hlen, hval, hneg, hnd, hsub⟩ :=
        initLoop_spec pr stream size [] []
          hs (by intro c hc; cases hc) (by intro c hc; cases hc)
          (by simp) (by intro c hc; cases hc) (inds, s) (hinds ▸ hloop)
      rw [hinds] at hlen hval hneg hnd hsub
      simp only [List.length_nil, Nat.zero_add] at hlen
      refine ⟨hlen, ⟨hval, hneg, hnd, hsub⟩, ?_, ?_⟩
      · -- the fittest index designates a member slot
        show setFittestIdx (c0 :: tail) < (c0 :: tail).length
        have hspec := bestIdx_spec (c0 :: tail) (List.range (c0 :: tail).length) 0
        rcases hspec.1 with hm | hm
        · rw [show setFittestIdx (c0 :: tail)
                = bestIdx (c0 :: tail) 0 (List.range (c0 :: tail).length) from rfl,
              hm]
          simp
        · rw [show setFittestIdx (c0 :: tail)
                = bestIdx (c0 :: tail) 0 (List.range (c0 :: tail).length) from rfl]
          exact List.mem_range.mp hm
      · -- minimality of the tracked fittest
        show ∀ c ∈ c0 :: tail,
            ((c0 :: tail).getD (setFittestIdx (c0 :: tail)) emptyConf).fitness
              ≤ c.fitness
        intro c hc
        obtain ⟨j, hj, hjc⟩ := List.mem_iff_getElem.mp hc
        have hall := (bestIdx_spec (c0 :: tail) (List.range (c0 :: tail).length) 0).2.2
        have hcd : (c0 :: tail).getD j emptyConf = c := by
          rw [List.getD_eq_getElem?_getD, List.getElem?_eq_getElem hj]
          exact hjc
        rw [← hcd]
        exact hall j (List.mem_range.mpr hj)

/-- Claim C4: after initialization the population holds exactly the
configured number of individuals, each valid with strictly negative
fitness and pairwise-distinct encoding strings; and every generation
step preserves these properties, never changing the member count. -/
theorem population_invariants :
    (∀ (pr : List Char) (size : Nat) (stream : List (List Int)) (st : PopState),
        (∀ e ∈ stream, noDupAux [] (calcAbsolutePositions e) = true) →
        initPop pr size stream = some st →
        st.individuals.length = size ∧ PopInv st)
    ∧ ∀ (st : PopState) (o : Oracle), PopInv st →
        PopInv (popStep st o)
        ∧ (popStep st o).individuals.length = st.individuals.length := by
  constructor
  · intro pr size stream st hs h
    obtain ⟨h1, h2, _⟩ := initPop_spec pr size stream st hs h
    exact ⟨h1, h2⟩
  · intro st o h
    exact ⟨popStep_popInv st o h, popStep_length st o⟩

/-- Witness for C4: a concrete three-member initialization over the
protein "BBBBBB" and one concrete generation step on it. -/
theorem population_invariants_w :
    cInitState.individuals.length = 3 ∧ PopInv cInitState
    ∧ PopInv (popStep cInitState cOracle) := by
  have h1 := population_invariants.1 cPr 3
    [[1, 1, -1, 1], [-1, -1, 1, -1], [0, 1, 1, -1]] cInitState
    (by decide) (by decide)
  exact ⟨h1.1, h1.2, (population_invariants.2 cInitState cOracle h1.2).1⟩

/-! Elitist replacement (claim C6). -/

/-- Counterexample to claim C6 as stated: a valid child (`confC`) whose
encoding string is absent from the uniqueness index and whose recomputed
fitness equals both parents' fitness replaces neither parent — the code
requires the parent to be strictly worse, so with "fitness no better
than (greater than or equal to)" the claim fails at equality. -/
theorem elitist_replacement_cex :
    confC.validState = true
    ∧ getConformationString confC ∉ c6State.setOfConformations
    ∧ calcFitness confC.length cPr confC.absPositions
        = (c6State.individuals.getD 0 emptyConf).fitness
    ∧ calcFitness confC.length cPr confC.absPositions
        = (c6State.individuals.getD 1 emptyConf).fitness
    ∧ (attemptReplace cPr c6State confC 0 1).individuals
        = c6State.individuals := by
  refine ⟨by decide, by decide, by decide, by decide, by decide⟩

/-- Claim C6 (amended): a mutated child that is valid and whose string
is not yet in the uniqueness index replaces whichever of its two
parents has *strictly worse* (strictly greater) fitness than the
child's, preferring the owning parent and falling back to the other
parent only when the first strict comparison fails; when neither parent
is strictly worse (equality included) no replacement happens; a child
is retained by at most one replacement and is never appended as a new
member. -/
theorem elitist_replacement_strict (pr : List Char) (st : PopState)
    (child : Conf) (a b : Nat)
    (hv : child.validState = true)
    (hfresh : getConformationString child ∉ st.setOfConformations) :
    (calcFitness child.length pr child.absPositions
        < (st.individuals.getD a emptyConf).fitness →
      (attemptReplace pr st child a b).individuals
        = st.individuals.set a
            { child with fitness := calcFitness child.length pr child.absPositions })
    ∧ (¬ calcFitness child.length pr child.absPositions
          < (st.individuals.getD a emptyConf).fitness →
        calcFitness child.length pr child.absPositions
          < (st.individuals.getD b emptyConf).fitness →
      (attemptReplace pr st child a b).individuals
        = st.individuals.set b
            { child with fitness := calcFitness child.length pr child.absPositions })
    ∧ (¬ calcFitness child.length pr child.absPositions
          < (st.individuals.getD a emptyConf).fitness →
       ¬ calcFitness child.length pr child.absPositions
          < (st.individuals.getD b emptyConf).fitness →
      (attemptReplace pr st child a b).individuals = st.individuals)
    ∧ (attemptReplace pr st child a b).individuals.length
        = st.individuals.length := by
  have hfresh2 : getConformationString
      { child with fitness := calcFitness child.length pr child.absPositions }
      ∉ st.setOfConformations := hfresh
  unfold attemptReplace
  dsimp only
  rw [if_pos hv, if_neg hfresh2]
  refine ⟨?_, ?_, ?_, ?_⟩
  · intro hfa
    rw [if_pos hfa]
  · intro hfa hfb
    rw [if_neg hfa, if_pos hfb]
  · intro hfa hfb
    rw [if_neg hfa, if_neg hfb]
  · split_ifs <;> simp

/-- Witness for the amended C6: the child "RRLL" (fitness -2) strictly
beats parent slot 0 (fitness -1) in `cState` and replaces it. -/
theorem elitist_replacement_strict_w :
    (attemptReplace cPr cState
        (mkConf cPr [1, 1, -1, -1]) 0 1).individuals
      = cState.individuals.set 0
          { mkConf cPr [1, 1, -1, -1] with
              fitness := calcFitness (mkConf cPr [1, 1, -1, -1]).length cPr
                (mkConf cPr [1, 1, -1, -1]).absPositions } :=
  (elitist_replacement_strict cPr cState (mkConf cPr [1, 1, -1, -1]) 0 1
    (by decide) (by decide)).1 (by decide)

/-! Uniqueness-index behaviour (claim C9). -/

/-- Counterexample to claim C9 as stated: stepping `cState` with
`cOracle` displaces the member of slot 0 (encoding string "RRLR") by
the child "RRLL"; afterwards no member holds "RRLR", yet "RRLR" is
still in the uniqueness index — the index never frees displaced
encodings. -/
theorem uniqueness_index_cex :
    getConformationString (cState.individuals.getD 0 emptyConf) = "RRLR"
    ∧ (popStep cState cOracle).individuals.getD 0 emptyConf
        ≠ cState.individuals.getD 0 emptyConf
    ∧ (∀ c ∈ (popStep cState cOracle).individuals,
        getConformationString c ≠ "RRLR")
    ∧ "RRLR" ∈ (popStep cState cOracle).setOfConformations := by
  refine ⟨by decide, by decide, by decide, by decide⟩

/-- Claim C9 (amended): the uniqueness index only grows — a displaced
member's encoding string remains registered even when no remaining
member holds it; across any generation step the index is a superset of
its previous value and always contains the string of every current
member. -/
theorem uniqueness_index_monotone (st : PopState) (o : Oracle)
    (h : ∀ c ∈ st.individuals, getConformationString c ∈ st.setOfConformations) :
    st.setOfConformations ⊆ (popStep st o).setOfConformations
    ∧ ∀ c ∈ (popStep st o).individuals,
        getConformationString c ∈ (popStep st o).setOfConformations := by
  unfold popStep
  dsimp only
  by_cases h1 : o.skip1 = true
  · rw [if_pos h1]
    exact ⟨fun x hx => hx, h⟩
  · rw [if_neg h1]
    by_cases h2 : o.skip2 = true
    · rw [if_pos h2]
      exact ⟨fun x hx => hx, h⟩
    · rw [if_neg h2]
      dsimp only
      set i1 := tournamentSelectIdx st.individuals o.sample1 with hi1
      set i2 := tournamentSelectIdx st.individuals o.sample2 with hi2
      set st2 : PopState := { st with p1Idx := i1, p2Idx := i2 } with hst2
      set c1 := revalidate (mutateConf
        (crossoverConf (st.individuals.getD i1 emptyConf)
          (st.individuals.getD i2 emptyConf) o.k1) o.m1) with hc1
      set c2 := revalidate (mutateConf
        (crossoverConf (st.individuals.getD i2 emptyConf)
          (st.individuals.getD i1 emptyConf) o.k2) o.m2) with hc2
      set A3 := attemptReplace st.protein st2 c1 i1 i2 with hA3
      set A4 := attemptReplace A3.protein A3 c2 i2 i1 with hA4
      constructor
      · exact subset_trans (attemptReplace_superset st.protein st2 c1 i1 i2)
          (attemptReplace_superset A3.protein A3 c2 i2 i1)
      · exact attemptReplace_strings A3.protein A3 c2 i2 i1
          (attemptReplace_strings st.protein st2 c1 i1 i2 h)

/-- Witness for the amended C9 at `cState` and `cOracle`. -/
theorem uniqueness_index_monotone_w :
    cState.setOfConformations ⊆ (popStep cState cOracle).setOfConformations :=
  (uniqueness_index_monotone cState cOracle (by decide)).1

/-! Fittest tracking (claim C10). -/

lemma tournamentSelectIdx_lt (inds : List Conf) (sample : List Nat)
    (hne : sample ≠ []) (hidx : ∀ i ∈ sample, i < inds.length) :
    tournamentSelectIdx inds sample < inds.length := by
  match sample, hne with
  | s :: rest, _ =>
    rcases (bestIdx_spec inds rest s).1 with hm | hm
    · rw [show tournamentSelectIdx inds (s :: rest) = bestIdx inds s rest
            from rfl, hm]
      exact hidx s (List.mem_cons_self s rest)
    · exact hidx _ (List.mem_cons_of_mem s hm)

lemma attemptReplace_slots (pr : List Char) (st : PopState) (child : Conf)
    (a b : Nat) :
    (∀ j, ((attemptReplace pr st child a b).individuals.getD j emptyConf).fitness
        ≤ (st.individuals.getD j emptyConf).fitness)
    ∧ (∀ j, j ≠ a → j ≠ b →
        (attemptReplace pr st child a b).individuals.getD j emptyConf
          = st.individuals.getD j emptyConf) := by
  unfold attemptReplace
  dsimp only
  split_ifs with hv hmem hfa hfb
  · exact ⟨fun j => le_refl _, fun j _ _ => rfl⟩
  · refine ⟨?_, ?_⟩
    · intro j
      by_cases hja : j = a
      · subst hja
        exact getD_set_self_le _ _ _ (le_of_lt hfa)
      · rw [getD_set_ne _ _ _ _ (fun heq => hja heq.symm)]
    · intro j hja _
      rw [getD_set_ne _ _ _ _ (fun heq => hja heq.symm)]
  · refine ⟨?_, ?_⟩
    · intro j
      by_cases hjb : j = b
      · subst hjb
        exact getD_set_self_le _ _ _ (le_of_lt hfb)
      · rw [getD_set_ne _ _ _ _ (fun heq => hjb heq.symm)]
    · intro j _ hjb
      rw [getD_set_ne _ _ _ _ (fun heq => hjb heq.symm)]
  · exact ⟨fun j => le_refl _, fun j _ _ => rfl⟩
  · exact ⟨fun j => le_refl _, fun j _ _ => rfl⟩

lemma fitUpdate (S : PopState) (old : List Conf) (i1 i2 : Nat)
    (hlen : S.individuals.length = old.length)
    (hf0 : S.fIdx < old.length)
    (hle : ∀ j, (S.individuals.getD j emptyConf).fitness
        ≤ (old.getD j emptyConf).fitness)
    (hunch : ∀ j, j ≠ i1 → j ≠ i2 →
        S.individuals.getD j emptyConf = old.getD j emptyConf)
    (hmin : ∀ c ∈ old, (old.getD S.fIdx emptyConf).fitness ≤ c.fitness)
    (h1 : i1 < old.length) (h2 : i2 < old.length) :
    FitInv { S with fIdx :=
        if (S.individuals.getD i2 emptyConf).fitness
            < (S.individuals.getD
                (if (S.individuals.getD i1 emptyConf).fitness
                    < (S.individuals.getD S.fIdx emptyConf).fitness
                 then i1 else S.fIdx) emptyConf).fitness
        then i2
        else if (S.individuals.getD i1 emptyConf).fitness
            < (S.individuals.getD S.fIdx emptyConf).fitness
        then i1 else S.fIdx }
    ∧ (getFittest { S with fIdx :=
        if (S.individuals.getD i2 emptyConf).fitness
            < (S.individuals.getD
                (if (S.individuals.getD i1 emptyConf).fitness
                    < (S.individuals.getD S.fIdx emptyConf).fitness
                 then i1 else S.fIdx) emptyConf).fitness
        then i2
        else if (S.individuals.getD i1 emptyConf).fitness
            < (S.individuals.getD S.fIdx emptyConf).fitness
        then i1 else S.fIdx }).fitness
      ≤ (old.getD S.fIdx emptyConf).fitness := by
  simp only [FitInv, getFittest]
  set F1 := if (S.individuals.getD i1 emptyConf).fitness
      < (S.individuals.getD S.fIdx emptyConf).fitness
    then i1 else S.fIdx with hF1
  set F2 := if (S.individuals.getD i2 emptyConf).fitness
      < (S.individuals.getD F1 emptyConf).fitness
    then i2 else F1 with hF2
  have hf1a : (S.individuals.getD F1 emptyConf).fitness
      ≤ (S.individuals.getD i1 emptyConf).fitness := by
    rw [hF1]
    by_cases hc : (S.individuals.getD i1 emptyConf).fitness
        < (S.individuals.getD S.fIdx emptyConf).fitness
    · rw [if_pos hc]
    · rw [if_neg hc]
      exact le_of_not_lt hc
  have hf1b : (S.individuals.getD F1 emptyConf).fitness
      ≤ (S.individuals.getD S.fIdx emptyConf).fitness := by
    rw [hF1]
    by_cases hc : (S.individuals.getD i1 emptyConf).fitness
        < (S.individuals.getD S.fIdx emptyConf).fitness
    · rw [if_pos hc]
      exact le_of_lt hc
    · rw [if_neg hc]
  have hf2a : (S.individuals.getD F2 emptyConf).fitness
      ≤ (S.individuals.getD i2 emptyConf).fitness := by
    rw [hF2]
    by_cases hc : (S.individuals.getD i2 emptyConf).fitness
        < (S.individuals.getD F1 emptyConf).fitness
    · rw [if_pos hc]
    · rw [if_neg hc]
      exact le_of_not_lt hc
  have hf2b : (S.individuals.getD F2 emptyConf).fitness
      ≤ (S.individuals.getD F1 emptyConf).fitness := by
    rw [hF2]
    by_cases hc : (S.individuals.getD i2 emptyConf).fitness
        < (S.individuals.getD F1 emptyConf).fitness
    · rw [if_pos hc]
      exact le_of_lt hc
    · rw [if_neg hc]
  have hF1mem : F1 = i1 ∨ F1 = S.fIdx := by
    rw [hF1]
    by_cases hc : (S.individuals.getD i1 emptyConf).fitness
        < (S.individuals.getD S.fIdx emptyConf).fitness
    · rw [if_pos hc]
      exact Or.inl rfl
    · rw [if_neg hc]
      exact Or.inr rfl
  have hF2mem : F2 = i2 ∨ F2 = F1 := by
    rw [hF2]
    by_cases hc : (S.individuals.getD i2 emptyConf).fitness
        < (S.individuals.getD F1 emptyConf).fitness
    · rw [if_pos hc]
      exact Or.inl rfl
    · rw [if_neg hc]
      exact Or.inr rfl
  refine ⟨⟨?_, ?_⟩, ?_⟩
  · -- the new fittest index designates a slot
    rw [hlen]
    rcases hF2mem with hm | hm
    · rw [hm]
      exact h2
    · rw [hm]
      rcases hF1mem with hm2 | hm2
      · rw [hm2]
        exact h1
      · rw [hm2]
        exact hf0
  · -- minimality over all current members
    intro c hc
    obtain ⟨j, hj, hjc⟩ := List.mem_iff_getElem.mp hc
    have hcd : S.individuals.getD j emptyConf = c := by
      rw [List.getD_eq_getElem?_getD, List.getElem?_eq_getElem hj]
      exact hjc
    rw [← hcd]
    by_cases hji1 : j = i1
    · subst hji1
      exact le_trans hf2b hf1a
    · by_cases hji2 : j = i2
      · subst hji2
        exact hf2a
      · have hjo : j < old.length := by rw [← hlen]; exact hj
        have hmem : old.getD j emptyConf ∈ old := by
          rw [List.getD_eq_getElem?_getD, List.getElem?_eq_getElem hjo]
          exact List.getElem_mem _
        calc (S.individuals.getD F2 emptyConf).fitness
            ≤ (S.individuals.getD F1 emptyConf).fitness := hf2b
          _ ≤ (S.individuals.getD S.fIdx emptyConf).fitness := hf1b
          _ ≤ (old.getD S.fIdx emptyConf).fitness := hle S.fIdx
          _ ≤ (old.getD j emptyConf).fitness := hmin _ hmem
          _ = (S.individuals.getD j emptyConf).fitness := by
                rw [hunch j hji1 hji2]
  · -- the tracked fitness never increases
    exact le_trans (le_trans hf2b hf1b) (hle S.fIdx)

lemma popStep_fit (st : PopState) (o : Oracle) (hf : FitInv st)
    (ho : oracleOK st.individuals.length o) :
    FitInv (popStep st o)
    ∧ (getFittest (popStep st o)).fitness ≤ (getFittest st).fitness := by
  obtain ⟨hs1ne, hs1lt, hs2ne, hs2lt⟩ := ho
  unfold popStep
  dsimp only
  by_cases h1 : o.skip1 = true
  · rw [if_pos h1]
    exact ⟨hf, le_refl _⟩
  · rw [if_neg h1]
    by_cases h2 : o.skip2 = true
    · rw [if_pos h2]
      exact ⟨hf, le_refl _⟩
    · rw [if_neg h2]
      set i1 := tournamentSelectIdx st.individuals o.sample1 with hi1
      set i2 := tournamentSelectIdx st.individuals o.sample2 with hi2
      set st2 : PopState := { st with p1Idx := i1, p2Idx := i2 } with hst2
      set c1 := revalidate (mutateConf
        (crossoverConf (st.individuals.getD i1 emptyConf)
          (st.individuals.getD i2 emptyConf) o.k1) o.m1) with hc1
      set c2 := revalidate (mutateConf
        (crossoverConf (st.individuals.getD i2 emptyConf)
          (st.individuals.getD i1 emptyConf) o.k2) o.m2) with hc2
      set A3 := attemptReplace st.protein st2 c1 i1 i2 with hA3
      set A4 := attemptReplace A3.protein A3 c2 i2 i1 with hA4
      have hi1lt : i1 < st.individuals.length :=
        tournamentSelectIdx_lt _ _ hs1ne hs1lt
      have hi2lt : i2 < st.individuals.length :=
        tournamentSelectIdx_lt _ _ hs2ne hs2lt
      have hfidx : A4.fIdx = st.fIdx := by
        rw [hA4, attemptReplace_fIdx, hA3, attemptReplace_fIdx]
      have hlen : A4.individuals.length = st.individuals.length := by
        rw [hA4, attemptReplace_length, hA3, attemptReplace_length]
      have hf0 : A4.fIdx < st.individuals.length := by
        rw [hfidx]
        exact hf.1
      have hle : ∀ j, (A4.individuals.getD j emptyConf).fitness
          ≤ (st.individuals.getD j emptyConf).fitness := by
        intro j
        exact le_trans ((attemptReplace_slots A3.protein A3 c2 i2 i1).1 j)
          ((attemptReplace_slots st.protein st2 c1 i1 i2).1 j)
      have hunch : ∀ j, j ≠ i1 → j ≠ i2 →
          A4.individuals.getD j emptyConf = st.individuals.getD j emptyConf := by
        intro j hja hjb
        rw [hA4]
        rw [(attemptReplace_slots A3.protein A3 c2 i2 i1).2 j hjb hja]
        rw [hA3]
        exact (attemptReplace_slots st.protein st2 c1 i1 i2).2 j hja hjb
      have hmin : ∀ c ∈ st.individuals,
          (st.individuals.getD A4.fIdx emptyConf).fitness ≤ c.fitness := by
        rw [hfidx]
        exact hf.2
      have hkey := fitUpdate A4 st.individuals i1 i2 hlen hf0 hle hunch hmin
        hi1lt hi2lt
      refine ⟨hkey.1, ?_⟩
      have h2nd := hkey.2
      have hrhs : (st.individuals.getD A4.fIdx emptyConf).fitness
          = (getFittest st).fitness := by
        rw [hfidx]
        rfl
      rw [hrhs] at h2nd
      exact h2nd

lemma popIterate_fit (st : PopState) (os : List Oracle)
    (hf : FitInv st) (ho : ∀ o ∈ os, oracleOK st.individuals.length o) :
    FitInv (popIterate st os)
    ∧ (getFittest (popIterate st os)).fitness ≤ (getFittest st).fitness := by
  induction os generalizing st with
  | nil => exact ⟨hf, le_refl _⟩
  | cons o os ih =>
    have hstep := popStep_fit st o hf (ho o (List.mem_cons_self o os))
    have hrest : ∀ o2 ∈ os, oracleOK (popStep st o).individuals.length o2 := by
      intro o2 ho2
      rw [popStep_length]
      exact ho o2 (List.mem_cons_of_mem o ho2)
    obtain ⟨ha, hb⟩ := ih (popStep st o) hstep.1 hrest
    exact ⟨ha, le_trans hb hstep.2⟩

lemma getFittest_mem (st : PopState) (h : st.fIdx < st.individuals.length) :
    getFittest st ∈ st.individuals := by
  unfold getFittest
  rw [List.getD_eq_getElem?_getD, List.getElem?_eq_getElem h]
  exact List.getElem_mem _

/-- Claim C10: after construction and after every generation step the
tracked fittest conformation is one of the current individuals and has
minimal fitness among them; consequently the fitness of `getFittest`
never increases across any sequence of generation steps. -/
theorem fittest_tracking :
    (∀ (pr : List Char) (size : Nat) (stream : List (List Int)) (st : PopState),
        (∀ e ∈ stream, noDupAux [] (calcAbsolutePositions e) = true) →
        initPop pr size stream = some st →
        getFittest st ∈ st.individuals
        ∧ ∀ c ∈ st.individuals, (getFittest st).fitness ≤ c.fitness)
    ∧ (∀ (st : PopState) (o : Oracle), FitInv st →
        oracleOK st.individuals.length o →
        (getFittest (popStep st o) ∈ (popStep st o).individuals
          ∧ ∀ c ∈ (popStep st o).individuals,
              (getFittest (popStep st o)).fitness ≤ c.fitness)
        ∧ (getFittest (popStep st o)).fitness ≤ (getFittest st).fitness)
    ∧ ∀ (st : PopState) (os : List Oracle), FitInv st →
        (∀ o ∈ os, oracleOK st.individuals.length o) →
        (getFittest (popIterate st os)).fitness ≤ (getFittest st).fitness := by
  refine ⟨?_, ?_, ?_⟩
  · intro pr size stream st hs h
    obtain ⟨-, -, hfit⟩ := initPop_spec pr size stream st hs h
    exact ⟨getFittest_mem st hfit.1, hfit.2⟩
  · intro st o hfi ho
    obtain ⟨hfi2, hdec⟩ := popStep_fit st o hfi ho
    exact ⟨⟨getFittest_mem _ hfi2.1, hfi2.2⟩, hdec⟩
  · intro st os hfi ho
    exact (popIterate_fit st os hfi ho).2

/-- Witness for C10: the concrete initialization `cInitState`, one
concrete step with `cOracle`, and the one-step iterate. -/
theorem fittest_tracking_w :
    (getFittest cInitState ∈ cInitState.individuals
      ∧ ∀ c ∈ cInitState.individuals,
          (getFittest cInitState).fitness ≤ c.fitness)
    ∧ (getFittest (popStep cInitState cOracle)).fitness
        ≤ (getFittest cInitState).fitness
    ∧ (getFittest (popIterate cInitState [cOracle])).fitness
        ≤ (getFittest cInitState).fitness :=
  ⟨fittest_tracking.1 cPr 3 [[1, 1, -1, 1], [-1, -1, 1, -1], [0, 1, 1, -1]]
      cInitState (by decide) (by decide),
   (fittest_tracking.2.1 cInitState cOracle ⟨by decide, by decide⟩
      ⟨by decide, by decide, by decide, by decide⟩).2,
   fittest_tracking.2.2 cInitState [cOracle] ⟨by decide, by decide⟩
     (by
       intro o ho
       rw [List.mem_singleton] at ho
       subst ho
       exact ⟨by decide, by decide, by decide, by decide⟩)⟩

/-! Degenerate sequences (claim C8). -/

/-- Claim C8 concerns sequences of length < 2.  The claim (and the
spec's error-handling section) requires such a run to be rejected up
front with a configuration error; the source has no length validation
anywhere, and constructing a conformation for such a protein instead
raises an uncaught `IndexError` inside `calcAbsolutePositions`
(assignment to `absPositions[0]` / `absPositions[1]`), modelled here by
`none`: the code crashes rather than rejecting the input. -/
theorem degenerate_sequence_crash :
    conformationNewRun ['B'] [] = none
    ∧ conformationNewRun [] [] = none
    ∧ calcAbsolutePositionsRun 1 [] = none
    ∧ calcAbsolutePositionsRun 0 [] = none := by
  refine ⟨by decide, by decide, by decide, by decide⟩

end HPGA
